import Mathlib

/-!
Shallow embedding of `src/services/document_processor.py` from the
s2-document-intelligence repository, together with proofs of the frozen
claims about it.

Conventions of the embedding:
* Python floats (PDF text-layer coordinates, OCR polygon coordinates,
  OCR confidences) are modelled as rationals; Python `int()` is
  truncation toward zero (`trunc` below).
* Python strings are `List Char`; `str.splitlines` / `str.strip` are
  modelled with their documented boundary and whitespace character sets.
* The OCR engines are external collaborators: their per-call behaviour
  (raising, or returning a list of detections) is an explicit input
  (`OcrEnv`); `python`'s lazily constructed EasyOCR singleton is an
  explicit piece of process state (the language the singleton was first
  constructed with, `Option (List Char)`).
* Fallible code (`process_image_to_layout_json`, whose `try` block
  re-raises) returns `Except`.
-/

namespace DocProc

/-- Python `int()` applied to a float value: truncation toward zero. -/
def trunc (q : ℚ) : ℤ := if 0 ≤ q then ⌊q⌋ else ⌈q⌉

/-- The whitespace characters removed by Python `str.strip()`. -/
def pySpaceChars : List Char :=
  [' ', '\t', '\n', '\x0b', '\x0c', '\r', '\x1c', '\x1d', '\x1e', '\x1f',
   '\x85', '\xa0', '\u1680', '\u2000', '\u2001', '\u2002', '\u2003',
   '\u2004', '\u2005', '\u2006', '\u2007', '\u2008', '\u2009', '\u200a',
   '\u2028', '\u2029', '\u202f', '\u205f', '\u3000']

def isPySpace (c : Char) : Bool := pySpaceChars.contains c

/-- The line-boundary characters of Python `str.splitlines()`. -/
def isLineBreak (c : Char) : Bool :=
  c = '\n' || c = '\r' || c = '\x0b' || c = '\x0c' || c = '\x1c' ||
  c = '\x1d' || c = '\x1e' || c = '\x85' || c = '\u2028' || c = '\u2029'

/-- Worker for `splitlines`; `acc` holds the current line reversed.
`'\r'` directly followed by `'\n'` counts as a single boundary, and a
trailing boundary does not produce a final empty line. -/
def splitlinesAux : List Char → List Char → List (List Char)
  | [], acc => if acc.isEmpty then [] else [acc.reverse]
  | [c], acc =>
    if isLineBreak c then [acc.reverse]
    else [(c :: acc).reverse]
  | c :: c2 :: rest, acc =>
    if isLineBreak c then
      if c = '\r' && c2 = '\n' then acc.reverse :: splitlinesAux rest []
      else acc.reverse :: splitlinesAux (c2 :: rest) []
    else splitlinesAux (c2 :: rest) (c :: acc)

/-- Python `text.splitlines()`. -/
def splitlines (t : List Char) : List (List Char) := splitlinesAux t []

/-- Python `line.strip()`. -/
def strip (t : List Char) : List Char :=
  ((t.dropWhile isPySpace).reverse.dropWhile isPySpace).reverse

/-- `True` when a string is empty or whitespace-only (falsy after strip). -/
def blank (t : List Char) : Bool := (strip t).isEmpty

/-- `[ln.strip() for ln in text_str.splitlines() if ln.strip()]`
(line 100 of document_processor.py). -/
def cleanLines (t : List Char) : List (List Char) :=
  ((splitlines t).map strip).filter (fun l => !l.isEmpty)

/-- Python `"\n".join(clean_lines)`. -/
def joinNL : List (List Char) → List Char
  | [] => []
  | [l] => l
  | l :: m :: ls => l ++ '\n' :: joinNL (m :: ls)

/-- Decimal rendering of a natural number, with explicit fuel so that the
definition is structurally recursive (and hence kernel-computable). -/
def natStrAux : ℕ → ℕ → List Char
  | _, 0 => []
  | 0, _ + 1 => []
  | fuel + 1, n + 1 =>
    natStrAux fuel ((n + 1) / 10) ++ [Nat.digitChar ((n + 1) % 10)]

/-- Decimal rendering of a natural number, as produced by a Python
f-string such as `f"b{i+1}"`. -/
def natStr (n : ℕ) : List Char := natStrAux n n

/-! ## Data model (§3 of the spec / the dict literals in the source) -/

/-- The `bbox` field: `[x0, y0, x1, y1]`, four integers. -/
structure Bbox where
  x0 : ℤ
  y0 : ℤ
  x1 : ℤ
  y1 : ℤ
deriving DecidableEq, Repr

/-- One emitted block record. -/
structure Block where
  id : List Char
  role : List Char
  bbox : Bbox
  text : List Char
  confidence : ℚ
deriving DecidableEq, Repr

def roleText : List Char := ['t', 'e', 'x', 't']

/-- One element of `page.get_text("blocks")` that has at least five
fields: `(x0, y0, x1, y1, text, ...)`. -/
structure RawFragment where
  x0 : ℚ
  y0 : ℚ
  x1 : ℚ
  y1 : ℚ
  text : List Char
deriving DecidableEq

/-- One element of the raw block list; `short` models a tuple with
`len(blk) < 5`, which the loop skips (while still consuming its
enumeration index). -/
inductive RawEntry
  | short
  | frag (f : RawFragment)
deriving DecidableEq

/-- Lines 95-109 of document_processor.py, for the raw fragment at
enumeration index `i`: clean up the text and emit a block, or drop the
fragment when nothing survives. -/
def nativeBlockOf (i : ℕ) (f : RawFragment) : Option Block :=
  if (cleanLines f.text).isEmpty then none
  else some
    { id := 'b' :: natStr (i + 1)
      role := roleText
      bbox := ⟨trunc f.x0, trunc f.y0, trunc f.x1, trunc f.y1⟩
      text := joinNL (cleanLines f.text)
      confidence := 1 }

/-- The `for i, blk in enumerate(raw_blocks)` loop, starting at index `i`. -/
def extractNativeFrom (i : ℕ) : List RawEntry → List Block
  | [] => []
  | .short :: rest => extractNativeFrom (i + 1) rest
  | .frag f :: rest =>
    match nativeBlockOf i f with
    | none => extractNativeFrom (i + 1) rest
    | some b => b :: extractNativeFrom (i + 1) rest

/-- The native text extractor: lines 92-109 of document_processor.py. -/
def extractNative (raw : List RawEntry) : List Block := extractNativeFrom 0 raw

/-! ## OCR engine adapter (lines 144-203 and 236-271) -/

/-- A bounding polygon reported by an engine: at least one vertex
(PaddleOCR and EasyOCR report 4-point polygons). -/
structure Polygon where
  p0 : ℚ × ℚ
  rest : List (ℚ × ℚ)
deriving DecidableEq

/-- One `(bounding polygon, text, confidence)` triple reported by an
OCR engine. -/
structure Detection where
  poly : Polygon
  text : List Char
  conf : ℚ
deriving DecidableEq

/-- Python `min(xs)` over a nonempty collection, as a fold. -/
def foldMin (x : ℚ) (xs : List ℚ) : ℚ := xs.foldl min x

/-- Python `max(xs)` over a nonempty collection, as a fold. -/
def foldMax (x : ℚ) (xs : List ℚ) : ℚ := xs.foldl max x

/-- Lines 165-167: reduce a polygon to an axis-aligned box by min/max of
all x and y coordinates, then truncate to integers. -/
def polyBbox (p : Polygon) : Bbox :=
  { x0 := trunc (foldMin p.p0.1 (p.rest.map Prod.fst))
    y0 := trunc (foldMin p.p0.2 (p.rest.map Prod.snd))
    x1 := trunc (foldMax p.p0.1 (p.rest.map Prod.fst))
    y1 := trunc (foldMax p.p0.2 (p.rest.map Prod.snd)) }

/-- Lines 169-175: the block built for the detection at enumeration
index `i`; the engine text and confidence are carried verbatim. -/
def ocrBlockOf (i : ℕ) (d : Detection) : Block :=
  { id := 'o' :: 'c' :: 'r' :: natStr (i + 1)
    role := roleText
    bbox := polyBbox d.poly
    text := d.text
    confidence := d.conf }

/-- The `for i, line in enumerate(...)` loop over engine detections,
starting at enumeration index `i`. -/
def ocrBlocksFrom (i : ℕ) : List Detection → List Block
  | [] => []
  | d :: ds => ocrBlockOf i d :: ocrBlocksFrom (i + 1) ds

def ocrBlocks (ds : List Detection) : List Block := ocrBlocksFrom 0 ds

/-- Outcome of invoking one OCR engine on one image: the engine either
raises or returns a detection list (an absent / falsy result is the
empty list). -/
inductive EngineRun
  | raise
  | ok (ds : List Detection)

/-- The per-page OCR environment: which engines are importable, what
PaddleOCR returns on this image, and what an EasyOCR reader constructed
with a given language returns on this image. -/
structure OcrEnv where
  paddleAvailable : Bool
  paddle : EngineRun
  easyAvailable : Bool
  easy : List Char → EngineRun

/-- `d` is a detection some engine of `env` can report. -/
def envDet (env : OcrEnv) (d : Detection) : Prop :=
  (∃ ds, env.paddle = .ok ds ∧ d ∈ ds) ∨
  (∃ rl ds, env.easy rl = .ok ds ∧ d ∈ ds)

def enLang : List Char := ['e', 'n']

/-- Configuration `_get_paddle_ocr` constructs PaddleOCR with
(line 48): the language is fixed to `'en'`, never the caller's
`ocr_lang`. -/
structure PaddleCfg where
  lang : List Char
  useAngleCls : Bool
deriving DecidableEq

/-- `_get_paddle_ocr` (lines 44-49): `None` when PaddleOCR is not
importable, otherwise the singleton constructed with `lang='en'`. -/
def getPaddleOcr (available : Bool) : Option PaddleCfg :=
  if available then some { lang := enLang, useAngleCls := true } else none

/-- Outcome of `easy.readtext(img)` once the reader exists: `st2` is the
singleton state after the reader construction. -/
def easyCase (st2 : Option (List Char)) :
    EngineRun → Except Unit (List Block) × Option (List Char)
  | .raise => (.error (), st2)
  | .ok ds => (.ok (ocrBlocks ds), st2)

/-- The EasyOCR branch (lines 178-196 / 256-271).  The process-wide
singleton state `st` records the language the reader was first
constructed with: `_get_easy_ocr` only consults `lang` when the
singleton does not exist yet.  An engine exception is returned as
`.error` (the caller decides whether it is caught). -/
def easyAttempt (env : OcrEnv) (st : Option (List Char)) (lang : List Char) :
    Except Unit (List Block) × Option (List Char) :=
  if env.easyAvailable then
    easyCase (some (st.getD lang)) (env.easy (st.getD lang))
  else (.ok [], st)

/-- Outcome of `paddle.ocr(img, cls=True)`: an exception propagates to
the caller as-is; a falsy/empty result falls through to EasyOCR. -/
def paddleCase (env : OcrEnv) (st : Option (List Char)) (lang : List Char) :
    EngineRun → Except Unit (List Block) × Option (List Char)
  | .raise => (.error (), st)
  | .ok ds =>
    if ds.isEmpty then easyAttempt env st lang
    else (.ok (ocrBlocks ds), st)

/-- The engine-selection body shared by `_ocr_page` (lines 156-199) and
`process_image_to_layout_json` (lines 236-271): try PaddleOCR first;
fall back to EasyOCR when PaddleOCR is unavailable or its (truthy)
result is empty; with no engine at all, return the empty block list. -/
def ocrAttempt (env : OcrEnv) (st : Option (List Char)) (lang : List Char) :
    Except Unit (List Block) × Option (List Char) :=
  if env.paddleAvailable then paddleCase env st lang env.paddle
  else easyAttempt env st lang

/-- The `except` handler of `_ocr_page`: an exception becomes zero
detections. -/
def caught : Except Unit (List Block) → List Block
  | .ok bs => bs
  | .error _ => []

/-- `_ocr_page` (lines 144-203): the whole body runs under
`try/except`, so an engine exception degrades to zero detections. -/
def ocrPageRun (env : OcrEnv) (st : Option (List Char)) (lang : List Char) :
    List Block × Option (List Char) :=
  (caught (ocrAttempt env st lang).1, (ocrAttempt env st lang).2)

/-! ## Reading-order sorter (lines 118-119 and 276-277) -/

/-- The sort key `(b["bbox"][1], b["bbox"][0])`. -/
def sortKey (b : Block) : ℤ × ℤ := (b.bbox.y0, b.bbox.x0)

/-- Strict lexicographic comparison of sort keys (Python tuple `<`). -/
def keyLt (a b : Block) : Bool :=
  a.bbox.y0 < b.bbox.y0 || (a.bbox.y0 = b.bbox.y0 && a.bbox.x0 < b.bbox.x0)

/-- Non-strict lexicographic order on sort keys. -/
def keyLe (a b : Block) : Prop :=
  a.bbox.y0 < b.bbox.y0 ∨ (a.bbox.y0 = b.bbox.y0 ∧ a.bbox.x0 ≤ b.bbox.x0)

/-- Stable insertion: `b` passes exactly the elements strictly below it,
so equal keys keep their relative order. -/
def insertBlock (b : Block) : List Block → List Block
  | [] => [b]
  | c :: cs => if keyLt c b then c :: insertBlock b cs else b :: c :: cs

/-- `blocks.sort(key=lambda b: (b["bbox"][1], b["bbox"][0]))`: a stable
ascending sort on the reading-order key (Python's list.sort is stable;
any stable sort over the same key computes the same list). -/
def sortBlocks : List Block → List Block
  | [] => []
  | b :: bs => insertBlock b (sortBlocks bs)

/-! ## Document assembler -/

/-- One entry of the output `pages` array. -/
structure Page where
  page : ℕ
  width : ℤ
  height : ℤ
  blocks : List Block
deriving DecidableEq, Repr

/-- The top-level output record (the JSON object of §6). -/
structure DocumentRec where
  document_id : List Char
  filename : List Char
  num_pages : ℕ
  pages : List Page
deriving DecidableEq, Repr

/-- Python `Path(p).name`: the final path component. -/
def basename (p : List Char) : List Char :=
  (p.reverse.takeWhile (fun c => c ≠ '/')).reverse

/-- Python `Path(p).stem`: the final component minus its suffix; the
suffix exists when the last dot is neither the first nor the last
character of the name. -/
def stem (p : List Char) : List Char :=
  let n := basename p
  let r := n.reverse
  let sfx := r.takeWhile (fun c => c ≠ '.')
  let stemRev := (r.dropWhile (fun c => c ≠ '.')).drop 1
  if r.contains '.' && !sfx.isEmpty && !stemRev.isEmpty then stemRev.reverse
  else n

/-- `doc_id = document_id or Path(path).stem` (lines 81 and 222):
Python `or` falls through on any falsy value, i.e. on `None` and on the
empty string alike. -/
def resolveDocId (docId : Option (List Char)) (path : List Char) : List Char :=
  match docId with
  | none => stem path
  | some s => if s.isEmpty then stem path else s

/-- Everything `process_pdf_to_layout_json` consumes about one PDF page:
its dimensions, its raw text-layer fragments, and the OCR environment
for its rendered image. -/
structure PdfPageInput where
  widthQ : ℚ
  heightQ : ℚ
  raw : List RawEntry
  ocr : OcrEnv

/-- Lines 87-126 for a single page, instrumented: the final `Bool`
records whether the OCR engine adapter was invoked for this page. -/
def processPdfPageT (enableOcr : Bool) (lang : List Char)
    (st : Option (List Char)) (pageNum : ℕ) (pin : PdfPageInput) :
    Page × Option (List Char) × Bool :=
  if enableOcr && (extractNative pin.raw).isEmpty then
    ({ page := pageNum + 1, width := trunc pin.widthQ,
       height := trunc pin.heightQ,
       blocks := sortBlocks
         (if (ocrPageRun pin.ocr st lang).1.isEmpty then extractNative pin.raw
          else (ocrPageRun pin.ocr st lang).1) },
     (ocrPageRun pin.ocr st lang).2, true)
  else
    ({ page := pageNum + 1, width := trunc pin.widthQ,
       height := trunc pin.heightQ,
       blocks := sortBlocks (extractNative pin.raw) }, st, false)

/-- Lines 87-126 for a single page (without the instrumentation bit). -/
def processPdfPage (enableOcr : Bool) (lang : List Char)
    (st : Option (List Char)) (pageNum : ℕ) (pin : PdfPageInput) :
    Page × Option (List Char) :=
  ((processPdfPageT enableOcr lang st pageNum pin).1,
   (processPdfPageT enableOcr lang st pageNum pin).2.1)

/-- The `for page_num in range(len(pdf_doc))` loop: pages are processed
sequentially, threading the EasyOCR singleton state. -/
def processPdfPages (enableOcr : Bool) (lang : List Char) :
    Option (List Char) → ℕ → List PdfPageInput →
    List Page × Option (List Char)
  | st, _, [] => ([], st)
  | st, n, pin :: rest =>
    let pr := processPdfPage enableOcr lang st n pin
    let tail := processPdfPages enableOcr lang pr.2 (n + 1) rest
    (pr.1 :: tail.1, tail.2)

/-- `process_pdf_to_layout_json` (lines 60-141), for a PDF that opens
successfully with the given per-page inputs. -/
def processPdf (pdfPath : List Char) (docId : Option (List Char))
    (enableOcr : Bool) (lang : List Char) (inputs : List PdfPageInput)
    (st : Option (List Char)) : DocumentRec × Option (List Char) :=
  let pr := processPdfPages enableOcr lang st 0 inputs
  ({ document_id := resolveDocId docId pdfPath
     filename := basename pdfPath
     num_pages := pr.1.length
     pages := pr.1 }, pr.2)

/-- Everything `process_image_to_layout_json` consumes about its input
image: `dims = none` models `cv2.imread` returning `None`. -/
structure ImageInput where
  dims : Option (ℤ × ℤ)
  ocr : OcrEnv

/-- Assemble the single-page image document from the OCR outcome; an
engine exception propagates (the function's `try` re-raises). -/
def imageResult (imagePath : List Char) (docId : Option (List Char))
    (wh : ℤ × ℤ) : Except Unit (List Block) → Except Unit DocumentRec
  | .error e => .error e
  | .ok bs =>
    .ok { document_id := resolveDocId docId imagePath
          filename := basename imagePath
          num_pages := 1
          pages := [{ page := 1, width := wh.1, height := wh.2,
                      blocks := sortBlocks bs }] }

/-- The `if img is None: raise ValueError(...)` guard (lines 226-228). -/
def withDims (st : Option (List Char))
    (f : ℤ × ℤ → Except Unit DocumentRec × Option (List Char)) :
    Option (ℤ × ℤ) → Except Unit DocumentRec × Option (List Char)
  | none => (.error (), st)
  | some wh => f wh

/-- `process_image_to_layout_json` (lines 206-295).  The engine calls
run directly inside the function's own `try`, whose handler re-raises,
so an engine exception aborts the whole call (`.error`); only complete
backend absence degrades to an empty block list. -/
def processImage (imagePath : List Char) (docId : Option (List Char))
    (lang : List Char) (img : ImageInput) (st : Option (List Char)) :
    Except Unit DocumentRec × Option (List Char) :=
  withDims st
    (fun wh =>
      (imageResult imagePath docId wh (ocrAttempt img.ocr st lang).1,
       (ocrAttempt img.ocr st lang).2))
    img.dims

/-! ## Lemmas about the reading-order sorter -/

theorem keyLt_eq_true_iff {a b : Block} :
    keyLt a b = true ↔
      (a.bbox.y0 < b.bbox.y0 ∨ (a.bbox.y0 = b.bbox.y0 ∧ a.bbox.x0 < b.bbox.x0)) := by
  simp [keyLt]

theorem keyLe_of_keyLt_eq_false {a b : Block} (h : keyLt a b = false) :
    keyLe b a := by
  rw [← Bool.not_eq_true, keyLt_eq_true_iff] at h
  unfold keyLe
  omega

theorem keyLe_of_keyLt_eq_true {a b : Block} (h : keyLt a b = true) :
    keyLe a b := by
  rw [keyLt_eq_true_iff] at h
  unfold keyLe
  omega

theorem keyLe_trans {a b c : Block} (h1 : keyLe a b) (h2 : keyLe b c) :
    keyLe a c := by
  unfold keyLe at *
  omega

theorem sortKey_ne_of_keyLt {a b : Block} (h : keyLt a b = true) :
    sortKey a ≠ sortKey b := by
  rw [keyLt_eq_true_iff] at h
  simp only [sortKey, ne_eq, Prod.mk.injEq, not_and]
  omega

theorem insertBlock_perm (b : Block) (l : List Block) :
    List.Perm (insertBlock b l) (b :: l) := by
  induction l with
  | nil => exact List.Perm.refl _
  | cons c cs ih =>
    unfold insertBlock
    split
    · exact ((ih.cons c).trans (List.Perm.swap b c cs))
    · exact List.Perm.refl _

theorem sortBlocks_perm (l : List Block) : List.Perm (sortBlocks l) l := by
  induction l with
  | nil => exact List.Perm.refl _
  | cons b bs ih => exact (insertBlock_perm b (sortBlocks bs)).trans (ih.cons b)

theorem mem_sortBlocks {b : Block} {l : List Block} :
    b ∈ sortBlocks l ↔ b ∈ l :=
  (sortBlocks_perm l).mem_iff

theorem insertBlock_pairwise {b : Block} {l : List Block}
    (h : l.Pairwise keyLe) : (insertBlock b l).Pairwise keyLe := by
  induction l with
  | nil => simp [insertBlock]
  | cons c cs ih =>
    rw [List.pairwise_cons] at h
    unfold insertBlock
    split
    case isTrue hlt =>
      refine List.pairwise_cons.mpr ⟨?_, ih h.2⟩
      intro x hx
      rcases List.mem_cons.mp ((insertBlock_perm b cs).mem_iff.mp hx) with hx2 | hx2
      · exact hx2 ▸ keyLe_of_keyLt_eq_true hlt
      · exact h.1 x hx2
    case isFalse hlt =>
      refine List.pairwise_cons.mpr ⟨?_, List.pairwise_cons.mpr ⟨h.1, h.2⟩⟩
      intro x hx
      have hlt2 : keyLt c b = false := by simpa using hlt
      have hbc : keyLe b c := keyLe_of_keyLt_eq_false hlt2
      rcases List.mem_cons.mp hx with hx2 | hx2
      · exact hx2 ▸ hbc
      · exact keyLe_trans hbc (h.1 x hx2)

theorem sortBlocks_pairwise (l : List Block) :
    (sortBlocks l).Pairwise keyLe := by
  induction l with
  | nil => simp [sortBlocks]
  | cons b bs ih => exact insertBlock_pairwise ih

theorem insertBlock_filter_key (k : ℤ × ℤ) (b : Block) (l : List Block) :
    (insertBlock b l).filter (fun c => sortKey c = k) =
      if sortKey b = k then b :: l.filter (fun c => sortKey c = k)
      else l.filter (fun c => sortKey c = k) := by
  induction l with
  | nil => by_cases hb : sortKey b = k <;> simp [insertBlock, hb]
  | cons c cs ih =>
    unfold insertBlock
    split
    case isTrue hlt =>
      by_cases hb : sortKey b = k
      · have hc : sortKey c ≠ k := fun hc => by
          exact sortKey_ne_of_keyLt hlt (hc.trans hb.symm)
        simp [List.filter_cons, hb, hc, ih]
      · by_cases hc : sortKey c = k <;> simp [List.filter_cons, hb, hc, ih]
    case isFalse =>
      by_cases hb : sortKey b = k <;> simp [List.filter_cons, hb]

theorem sortBlocks_filter_key (k : ℤ × ℤ) (l : List Block) :
    (sortBlocks l).filter (fun c => sortKey c = k) =
      l.filter (fun c => sortKey c = k) := by
  induction l with
  | nil => rfl
  | cons b bs ih =>
    show (insertBlock b (sortBlocks bs)).filter _ = _
    rw [insertBlock_filter_key]
    by_cases hb : sortKey b = k <;> simp [List.filter_cons, hb, ih]

/-! ## Lemmas about truncation and polygon bounding boxes -/

theorem trunc_mono {q r : ℚ} (h : q ≤ r) : trunc q ≤ trunc r := by
  unfold trunc
  by_cases hq : 0 ≤ q <;> by_cases hr : 0 ≤ r <;> simp [hq, hr]
  · exact Int.floor_le_floor h
  · exact absurd (hq.trans h) hr
  · exact le_trans (Int.ceil_le.mpr (by exact_mod_cast le_of_not_le hq))
      (Int.le_floor.mpr (by exact_mod_cast hr))
  · exact Int.ceil_le_ceil h

theorem foldMin_le (x : ℚ) (xs : List ℚ) : foldMin x xs ≤ x := by
  induction xs generalizing x with
  | nil => exact le_refl x
  | cons a l ih =>
    calc foldMin (min x a) l ≤ min x a := ih (min x a)
    _ ≤ x := min_le_left x a

theorem le_foldMax (x : ℚ) (xs : List ℚ) : x ≤ foldMax x xs := by
  induction xs generalizing x with
  | nil => exact le_refl x
  | cons a l ih =>
    calc x ≤ max x a := le_max_left x a
    _ ≤ foldMax (max x a) l := ih (max x a)

theorem polyBbox_ordered (p : Polygon) :
    (polyBbox p).x0 ≤ (polyBbox p).x1 ∧ (polyBbox p).y0 ≤ (polyBbox p).y1 := by
  constructor <;>
    exact trunc_mono ((foldMin_le _ _).trans (le_foldMax _ _))

/-! ## Lemmas about strip, splitlines and the fragment cleanup -/

theorem dropWhile_head_false {p : Char → Bool} {l : List Char} {a : Char}
    {as : List Char} (h : l.dropWhile p = a :: as) : p a = false := by
  induction l with
  | nil => simp at h
  | cons c cs ih =>
    rw [List.dropWhile_cons] at h
    split at h
    · exact ih h
    · cases h
      simpa using ‹¬ p a = true›

theorem mem_strip {c : Char} {t : List Char} (h : c ∈ strip t) : c ∈ t := by
  unfold strip at h
  rw [List.mem_reverse] at h
  have h2 := (List.dropWhile_sublist isPySpace).subset h
  rw [List.mem_reverse] at h2
  exact (List.dropWhile_sublist isPySpace).subset h2

theorem all_space_of_strip_eq_nil {t : List Char} (h : strip t = []) :
    ∀ c ∈ t, isPySpace c = true := by
  unfold strip at h
  rw [List.reverse_eq_nil_iff, List.dropWhile_eq_nil_iff] at h
  intro c hc
  rcases List.mem_append.mp
    ((List.takeWhile_append_dropWhile isPySpace t) ▸ hc) with hc2 | hc2
  · exact List.mem_takeWhile_imp hc2
  · exact h c (List.mem_reverse.mpr hc2)

theorem exists_nonspace_of_strip_ne_nil {t : List Char} (h : strip t ≠ []) :
    ∃ c ∈ strip t, isPySpace c = false := by
  rcases hs : ((t.dropWhile isPySpace).reverse.dropWhile isPySpace) with _ | ⟨a, as⟩
  · exact absurd (by simpa [strip] using congrArg List.reverse hs) h
  · refine ⟨a, ?_, dropWhile_head_false hs⟩
    show a ∈ strip t
    unfold strip
    rw [hs, List.mem_reverse]
    exact List.mem_cons_self a as

theorem mem_joinNL {c : Char} {l : List Char} {ls : List (List Char)}
    (hl : l ∈ ls) (hc : c ∈ l) : c ∈ joinNL ls := by
  induction ls with
  | nil => simp at hl
  | cons m ms ih =>
    rcases List.mem_cons.mp hl with h | h
    · cases ms with
      | nil => simpa [joinNL] using h ▸ hc
      | cons m2 ms2 => exact List.mem_append.mpr (Or.inl (h ▸ hc))
    · cases ms with
      | nil => simp at h
      | cons m2 ms2 =>
        exact List.mem_append.mpr (Or.inr (List.mem_cons_of_mem _ (ih h)))

theorem mem_cleanLines {l : List Char} {t : List Char}
    (h : l ∈ cleanLines t) :
    l ≠ [] ∧ ∃ u ∈ splitlines t, l = strip u := by
  unfold cleanLines at h
  rcases List.mem_filter.mp h with ⟨hmem, hne⟩
  rcases List.mem_map.mp hmem with ⟨u, hu, rfl⟩
  refine ⟨?_, u, hu, rfl⟩
  simpa using hne

theorem blank_joinNL_cleanLines {t : List Char}
    (h : cleanLines t ≠ []) : blank (joinNL (cleanLines t)) = false := by
  rcases List.exists_mem_of_ne_nil _ h with ⟨l, hl⟩
  rcases mem_cleanLines hl with ⟨hlne, u, _, hlu⟩
  rcases exists_nonspace_of_strip_ne_nil (hlu ▸ hlne) with ⟨c, hcs, hcns⟩
  have hcj : c ∈ joinNL (cleanLines t) := mem_joinNL hl (hlu ▸ hcs)
  have hne : strip (joinNL (cleanLines t)) ≠ [] := by
    intro hnil
    exact absurd (all_space_of_strip_eq_nil hnil c hcj) (by simp [hcns])
  unfold blank
  rw [Bool.eq_false_iff]
  exact fun hT => hne (List.isEmpty_iff.mp hT)

/-! ## Lemmas about the native text extractor -/

theorem nativeBlockOf_eq_none_iff {i : ℕ} {f : RawFragment} :
    nativeBlockOf i f = none ↔ cleanLines f.text = [] := by
  unfold nativeBlockOf
  split
  case isTrue h => simp [List.isEmpty_iff.mp h]
  case isFalse h => simpa using fun hc => h (by simp [hc])

theorem nativeBlockOf_eq_some {i : ℕ} {f : RawFragment} {b : Block}
    (h : nativeBlockOf i f = some b) :
    b.id = 'b' :: natStr (i + 1) ∧ b.role = roleText ∧
    b.bbox = ⟨trunc f.x0, trunc f.y0, trunc f.x1, trunc f.y1⟩ ∧
    b.text = joinNL (cleanLines f.text) ∧ b.confidence = 1 ∧
    cleanLines f.text ≠ [] := by
  unfold nativeBlockOf at h
  split at h
  case isTrue => simp at h
  case isFalse hne =>
    cases h
    exact ⟨rfl, rfl, rfl, rfl, rfl, fun hc => hne (by simp [hc])⟩

theorem nativeBlockOf_text_nonblank {i : ℕ} {f : RawFragment} {b : Block}
    (h : nativeBlockOf i f = some b) : blank b.text = false := by
  rcases nativeBlockOf_eq_some h with ⟨-, -, -, htext, -, hne⟩
  rw [htext]
  exact blank_joinNL_cleanLines hne

theorem mem_extractNativeFrom {b : Block} :
    ∀ {i : ℕ} {raw : List RawEntry}, b ∈ extractNativeFrom i raw →
      ∃ j f, RawEntry.frag f ∈ raw ∧ nativeBlockOf j f = some b := by
  intro i raw
  induction raw generalizing i with
  | nil => intro h; simp [extractNativeFrom] at h
  | cons e rest ih =>
    intro h
    cases e with
    | short =>
      rcases ih (by simpa [extractNativeFrom] using h) with ⟨j, f, hf, hb⟩
      exact ⟨j, f, List.mem_cons_of_mem _ hf, hb⟩
    | frag f =>
      rw [extractNativeFrom] at h
      rcases hnb : nativeBlockOf i f with _ | b2
      · rw [hnb] at h
        rcases ih h with ⟨j, g, hg, hb⟩
        exact ⟨j, g, List.mem_cons_of_mem _ hg, hb⟩
      · rw [hnb] at h
        rcases List.mem_cons.mp h with h2 | h2
        · exact ⟨i, f, List.mem_cons_self _ _, h2 ▸ hnb⟩
        · rcases ih h2 with ⟨j, g, hg, hb⟩
          exact ⟨j, g, List.mem_cons_of_mem _ hg, hb⟩

theorem mem_extractNative {b : Block} {raw : List RawEntry}
    (h : b ∈ extractNative raw) :
    ∃ j f, RawEntry.frag f ∈ raw ∧ nativeBlockOf j f = some b :=
  mem_extractNativeFrom h

/-! ## Injectivity of the decimal id rendering -/

theorem natStrAux_eq_digits :
    ∀ fuel n : ℕ, n ≤ fuel →
      natStrAux fuel n = ((Nat.digits 10 n).reverse.map Nat.digitChar) := by
  intro fuel
  induction fuel with
  | zero =>
    intro n hn
    interval_cases n
    simp [natStrAux]
  | succ fuel ih =>
    intro n hn
    cases n with
    | zero => simp [natStrAux]
    | succ m =>
      rw [natStrAux, ih ((m + 1) / 10) (by omega)]
      rw [Nat.digits_def' (by norm_num) (Nat.succ_pos m)]
      simp [List.reverse_cons]

theorem digitChar_inj_lt :
    ∀ a < 10, ∀ b < 10, Nat.digitChar a = Nat.digitChar b → a = b := by
  decide

theorem map_digitChar_inj :
    ∀ l1 l2 : List ℕ, (∀ d ∈ l1, d < 10) → (∀ d ∈ l2, d < 10) →
      l1.map Nat.digitChar = l2.map Nat.digitChar → l1 = l2 := by
  intro l1
  induction l1 with
  | nil =>
    intro l2 _ _ h
    cases l2 with
    | nil => rfl
    | cons b bs => simp at h
  | cons a as ih =>
    intro l2 h1 h2 h
    cases l2 with
    | nil => simp at h
    | cons b bs =>
      simp only [List.map_cons, List.cons.injEq] at h
      have hab : a = b :=
        digitChar_inj_lt a (h1 a (List.mem_cons_self _ _))
          b (h2 b (List.mem_cons_self _ _)) h.1
      have htail := ih bs (fun d hd => h1 d (List.mem_cons_of_mem _ hd))
        (fun d hd => h2 d (List.mem_cons_of_mem _ hd)) h.2
      rw [hab, htail]

theorem natStr_inj : Function.Injective natStr := by
  intro m n h
  rw [natStr, natStr, natStrAux_eq_digits m m le_rfl,
    natStrAux_eq_digits n n le_rfl] at h
  have hrev := List.reverse_injective (map_digitChar_inj _ _
    (fun d hd => Nat.digits_lt_base (by norm_num) (List.mem_reverse.mp hd))
    (fun d hd => Nat.digits_lt_base (by norm_num) (List.mem_reverse.mp hd)) h)
  have := congrArg (Nat.ofDigits 10) hrev
  simpa [Nat.ofDigits_digits] using this

/-! ## Lemmas about the OCR adapter and block provenance -/

theorem mem_ocrBlocksFrom {b : Block} :
    ∀ {i : ℕ} {ds : List Detection}, b ∈ ocrBlocksFrom i ds →
      ∃ j d, d ∈ ds ∧ b = ocrBlockOf j d := by
  intro i ds
  induction ds generalizing i with
  | nil => intro h; simp [ocrBlocksFrom] at h
  | cons d rest ih =>
    intro h
    rcases List.mem_cons.mp h with h2 | h2
    · exact ⟨i, d, List.mem_cons_self _ _, h2⟩
    · rcases ih h2 with ⟨j, d2, hd2, hb⟩
      exact ⟨j, d2, List.mem_cons_of_mem _ hd2, hb⟩

theorem mem_ocrBlocks {b : Block} {ds : List Detection}
    (h : b ∈ ocrBlocks ds) : ∃ j d, d ∈ ds ∧ b = ocrBlockOf j d :=
  mem_ocrBlocksFrom h

theorem easyAttempt_ok_mem {env : OcrEnv} {st st2 : Option (List Char)}
    {lang : List Char} {bs : List Block}
    (h : easyAttempt env st lang = (.ok bs, st2)) {b : Block} (hb : b ∈ bs) :
    ∃ j d, envDet env d ∧ b = ocrBlockOf j d := by
  unfold easyAttempt at h
  split at h
  · rcases he : env.easy (st.getD lang) with _ | ds <;>
      rw [he] at h <;> simp only [easyCase] at h
    · simp at h
    · simp only [Prod.mk.injEq, Except.ok.injEq] at h
      rcases h with ⟨rfl, -⟩
      rcases mem_ocrBlocks hb with ⟨j, d, hd, hbe⟩
      exact ⟨j, d, Or.inr ⟨_, ds, he, hd⟩, hbe⟩
  · simp only [Prod.mk.injEq, Except.ok.injEq] at h
    rcases h with ⟨rfl, -⟩
    simp at hb

theorem ocrAttempt_ok_mem {env : OcrEnv} {st st2 : Option (List Char)}
    {lang : List Char} {bs : List Block}
    (h : ocrAttempt env st lang = (.ok bs, st2)) {b : Block} (hb : b ∈ bs) :
    ∃ j d, envDet env d ∧ b = ocrBlockOf j d := by
  unfold ocrAttempt at h
  split at h
  · rcases hp : env.paddle with _ | ds <;>
      rw [hp] at h <;> simp only [paddleCase] at h
    · simp at h
    · split at h
      · exact easyAttempt_ok_mem h hb
      · simp only [Prod.mk.injEq, Except.ok.injEq] at h
        rcases h with ⟨rfl, -⟩
        rcases mem_ocrBlocks hb with ⟨j, d, hd, hbe⟩
        exact ⟨j, d, Or.inl ⟨ds, hp, hd⟩, hbe⟩
  · exact easyAttempt_ok_mem h hb

theorem ocrPageRun_mem {env : OcrEnv} {st : Option (List Char)}
    {lang : List Char} {b : Block}
    (hb : b ∈ (ocrPageRun env st lang).1) :
    ∃ j d, envDet env d ∧ b = ocrBlockOf j d := by
  unfold ocrPageRun at hb
  rcases ha : ocrAttempt env st lang with ⟨r, st2⟩
  rcases r with _ | bs <;> rw [ha] at hb <;> simp only [caught] at hb
  · simp at hb
  · exact ocrAttempt_ok_mem ha hb

/-- Every block of a processed PDF page comes from the native extractor
or from an engine detection of the page's OCR environment. -/
theorem processPdfPage_blocks_mem {enableOcr : Bool} {lang : List Char}
    {st : Option (List Char)} {n : ℕ} {pin : PdfPageInput} {b : Block}
    (hb : b ∈ (processPdfPage enableOcr lang st n pin).1.blocks) :
    b ∈ extractNative pin.raw ∨
      ∃ j d, envDet pin.ocr d ∧ b = ocrBlockOf j d := by
  unfold processPdfPage processPdfPageT at hb
  split at hb
  · simp only at hb
    rw [mem_sortBlocks] at hb
    split at hb
    · exact Or.inl hb
    · exact Or.inr (ocrPageRun_mem hb)
  · simp only at hb
    rw [mem_sortBlocks] at hb
    exact Or.inl hb

theorem processPdfPages_mem {enableOcr : Bool} {lang : List Char} :
    ∀ {st : Option (List Char)} {n : ℕ} {inputs : List PdfPageInput}
      {p : Page}, p ∈ (processPdfPages enableOcr lang st n inputs).1 →
      ∃ st2 m pin, pin ∈ inputs ∧
        p = (processPdfPage enableOcr lang st2 m pin).1 := by
  intro st n inputs
  induction inputs generalizing st n with
  | nil => intro p hp; simp [processPdfPages] at hp
  | cons pin rest ih =>
    intro p hp
    rw [processPdfPages] at hp
    rcases List.mem_cons.mp hp with h2 | h2
    · exact ⟨st, n, pin, List.mem_cons_self _ _, h2⟩
    · rcases ih h2 with ⟨st2, m, pin2, hpin2, hp2⟩
      exact ⟨st2, m, pin2, List.mem_cons_of_mem _ hpin2, hp2⟩

theorem processPdfPages_length {enableOcr : Bool} {lang : List Char} :
    ∀ (st : Option (List Char)) (n : ℕ) (inputs : List PdfPageInput),
      (processPdfPages enableOcr lang st n inputs).1.length =
        inputs.length := by
  intro st n inputs
  induction inputs generalizing st n with
  | nil => rfl
  | cons pin rest ih =>
    rw [processPdfPages]
    simpa using ih _ _

/-- Every block of a successfully processed image comes from an engine
detection of the image's OCR environment. -/
theorem processImage_blocks_mem {path : List Char} {docId : Option (List Char)}
    {lang : List Char} {img : ImageInput} {st : Option (List Char)}
    {d : DocumentRec}
    (h : (processImage path docId lang img st).1 = .ok d)
    {p : Page} (hp : p ∈ d.pages) {b : Block} (hb : b ∈ p.blocks) :
    ∃ j dt, envDet img.ocr dt ∧ b = ocrBlockOf j dt := by
  unfold processImage at h
  rcases hdims : img.dims with _ | wh <;>
    rw [hdims] at h <;> simp only [withDims] at h
  · cases h
  · rcases ha : ocrAttempt img.ocr st lang with ⟨r, st2⟩
    rcases r with _ | bs <;> rw [ha] at h <;> simp only [imageResult] at h
    · cases h
    · rcases Except.ok.injEq .. ▸ h with hd2
      cases hd2
      rcases List.mem_singleton.mp hp with rfl
      rw [mem_sortBlocks] at hb
      exact ocrAttempt_ok_mem ha hb

/-! ## Splitting the joined clean lines recovers them (round trip) -/

theorem splitlinesAux_cons_nobreak (c : Char) (rest acc : List Char)
    (h : isLineBreak c = false) :
    splitlinesAux (c :: rest) acc = splitlinesAux rest (c :: acc) := by
  cases rest with
  | nil => simp [splitlinesAux, h]
  | cons c2 rest2 => simp [splitlinesAux, h]

theorem splitlinesAux_newline (l : List Char)
    (hl : ∀ c ∈ l, isLineBreak c = false) :
    ∀ (acc rest : List Char),
      splitlinesAux (l ++ '\n' :: rest) acc =
        (acc.reverse ++ l) :: splitlinesAux rest [] := by
  induction l with
  | nil =>
    intro acc rest
    cases rest with
    | nil => simp [splitlinesAux, isLineBreak]
    | cons c2 r2 => simp [splitlinesAux, isLineBreak]
  | cons c l ih =>
    intro acc rest
    have hc := hl c (List.mem_cons_self _ _)
    rw [List.cons_append, splitlinesAux_cons_nobreak c _ _ hc,
      ih (fun x hx => hl x (List.mem_cons_of_mem _ hx)) (c :: acc) rest]
    simp

theorem splitlinesAux_nobreak (l : List Char)
    (hl : ∀ c ∈ l, isLineBreak c = false) :
    ∀ acc : List Char, splitlinesAux l acc =
      if (acc.reverse ++ l).isEmpty then [] else [acc.reverse ++ l] := by
  induction l with
  | nil => intro acc; cases acc <;> simp [splitlinesAux]
  | cons c l ih =>
    intro acc
    have hc := hl c (List.mem_cons_self _ _)
    rw [splitlinesAux_cons_nobreak c _ _ hc,
      ih (fun x hx => hl x (List.mem_cons_of_mem _ hx)) (c :: acc)]
    have hre : (c :: acc).reverse ++ l = acc.reverse ++ c :: l := by simp
    rw [hre]

theorem splitlinesAux_elems_nobreak :
    ∀ (t acc : List Char), (∀ c ∈ acc, isLineBreak c = false) →
      ∀ l ∈ splitlinesAux t acc, ∀ c ∈ l, isLineBreak c = false := by
  intro t acc
  induction t, acc using splitlinesAux.induct with
  | case1 acc hem =>
    intro hacc l hl
    rw [splitlinesAux, if_pos hem] at hl
    simp at hl
  | case2 acc hem =>
    intro hacc l hl
    rw [splitlinesAux, if_neg hem] at hl
    rcases List.mem_singleton.mp hl with rfl
    intro c hc
    exact hacc c (List.mem_reverse.mp hc)
  | case3 c acc hbr =>
    intro hacc l hl
    rw [splitlinesAux, if_pos hbr] at hl
    rcases List.mem_singleton.mp hl with rfl
    intro x hx
    exact hacc x (List.mem_reverse.mp hx)
  | case4 c acc hbr =>
    intro hacc l hl
    rw [splitlinesAux, if_neg hbr] at hl
    rcases List.mem_singleton.mp hl with rfl
    intro x hx
    rcases List.mem_cons.mp (List.mem_reverse.mp hx) with rfl | hx2
    · simpa using hbr
    · exact hacc x hx2
  | case5 c c2 rest acc hbr hcr ih =>
    intro hacc l hl
    rw [splitlinesAux, if_pos hbr, if_pos hcr] at hl
    rcases List.mem_cons.mp hl with rfl | hl2
    · intro x hx
      exact hacc x (List.mem_reverse.mp hx)
    · exact ih (by simp) l hl2
  | case6 c c2 rest acc hbr hcr ih =>
    intro hacc l hl
    rw [splitlinesAux, if_pos hbr, if_neg hcr] at hl
    rcases List.mem_cons.mp hl with rfl | hl2
    · intro x hx
      exact hacc x (List.mem_reverse.mp hx)
    · exact ih (by simp) l hl2
  | case7 c c2 rest acc hbr ih =>
    intro hacc l hl
    rw [splitlinesAux, if_neg hbr] at hl
    refine ih ?_ l hl
    intro x hx
    rcases List.mem_cons.mp hx with rfl | hx2
    · simpa using hbr
    · exact hacc x hx2

theorem splitlines_elems_nobreak {t l : List Char} (h : l ∈ splitlines t) :
    ∀ c ∈ l, isLineBreak c = false :=
  splitlinesAux_elems_nobreak t [] (by simp) l h

theorem cleanLines_elems {t l : List Char} (h : l ∈ cleanLines t) :
    l ≠ [] ∧ ∀ c ∈ l, isLineBreak c = false := by
  rcases mem_cleanLines h with ⟨hne, u, hu, rfl⟩
  exact ⟨hne, fun c hc =>
    splitlines_elems_nobreak hu c (mem_strip hc)⟩

theorem splitlines_joinNL (ls : List (List Char))
    (h1 : ∀ l ∈ ls, l ≠ [])
    (h2 : ∀ l ∈ ls, ∀ c ∈ l, isLineBreak c = false) :
    splitlines (joinNL ls) = ls := by
  induction ls with
  | nil => rfl
  | cons l ms ih =>
    cases ms with
    | nil =>
      show splitlinesAux (joinNL [l]) [] = [l]
      rw [joinNL, splitlinesAux_nobreak l (h2 l (List.mem_cons_self _ _)) []]
      simp [h1 l (List.mem_cons_self _ _)]
    | cons m ms2 =>
      show splitlinesAux (joinNL (l :: m :: ms2)) [] = l :: m :: ms2
      rw [joinNL,
        splitlinesAux_newline l (h2 l (List.mem_cons_self _ _)) [] _]
      have := ih (fun x hx => h1 x (List.mem_cons_of_mem _ hx))
        (fun x hx => h2 x (List.mem_cons_of_mem _ hx))
      rw [splitlines] at this
      simp [this]

theorem splitlines_joinNL_cleanLines (t : List Char) :
    splitlines (joinNL (cleanLines t)) = cleanLines t :=
  splitlines_joinNL (cleanLines t)
    (fun l hl => (cleanLines_elems hl).1)
    (fun l hl => (cleanLines_elems hl).2)

/-! ## Lemmas about id assignment -/

theorem nativeId_inj : Function.Injective (fun n => 'b' :: natStr (n + 1)) := by
  intro m n h
  simp only [List.cons.injEq, true_and] at h
  exact Nat.add_right_cancel (natStr_inj h)

theorem ocrId_inj :
    Function.Injective (fun n => 'o' :: 'c' :: 'r' :: natStr (n + 1)) := by
  intro m n h
  simp only [List.cons.injEq, true_and] at h
  exact Nat.add_right_cancel (natStr_inj h)

theorem extractNativeFrom_ids (raw : List RawEntry) :
    ∀ i : ℕ, ∃ ns : List ℕ,
      ns.Pairwise (· < ·) ∧ (∀ m ∈ ns, i ≤ m) ∧
      (extractNativeFrom i raw).map Block.id =
        ns.map (fun n => 'b' :: natStr (n + 1)) := by
  induction raw with
  | nil => exact fun i => ⟨[], by simp, by simp, by simp [extractNativeFrom]⟩
  | cons e rest ih =>
    intro i
    rcases ih (i + 1) with ⟨ns, hpw, hge, hmap⟩
    cases e with
    | short =>
      exact ⟨ns, hpw, fun m hm => le_trans (Nat.le_succ i) (hge m hm),
        by simpa [extractNativeFrom] using hmap⟩
    | frag f =>
      rcases hnb : nativeBlockOf i f with _ | b
      · exact ⟨ns, hpw, fun m hm => le_trans (Nat.le_succ i) (hge m hm),
          by simp only [extractNativeFrom, hnb]; exact hmap⟩
      · refine ⟨i :: ns, ?_, ?_, ?_⟩
        · exact List.pairwise_cons.mpr
            ⟨fun m hm => lt_of_lt_of_le (Nat.lt_succ_self i) (hge m hm), hpw⟩
        · intro m hm
          rcases List.mem_cons.mp hm with rfl | hm2
          · exact le_refl m
          · exact le_trans (Nat.le_succ i) (hge m hm2)
        · simp only [extractNativeFrom, hnb, List.map_cons, hmap]
          rw [(nativeBlockOf_eq_some hnb).1]

theorem extractNative_ids (raw : List RawEntry) :
    ∃ ns : List ℕ,
      ns.Pairwise (· < ·) ∧
      (extractNative raw).map Block.id =
        ns.map (fun n => 'b' :: natStr (n + 1)) := by
  rcases extractNativeFrom_ids raw 0 with ⟨ns, hpw, -, hmap⟩
  exact ⟨ns, hpw, hmap⟩

theorem extractNative_ids_nodup (raw : List RawEntry) :
    ((extractNative raw).map Block.id).Nodup := by
  rcases extractNative_ids raw with ⟨ns, hpw, hmap⟩
  rw [hmap]
  exact List.Nodup.map nativeId_inj (hpw.imp Nat.ne_of_lt)

theorem ocrBlocksFrom_ids (ds : List Detection) :
    ∀ i : ℕ, (ocrBlocksFrom i ds).map Block.id =
      (List.range ds.length).map
        (fun j => 'o' :: 'c' :: 'r' :: natStr (i + j + 1)) := by
  induction ds with
  | nil => intro i; simp [ocrBlocksFrom]
  | cons d rest ih =>
    intro i
    rw [ocrBlocksFrom, List.map_cons, ih (i + 1)]
    rw [List.length_cons, List.range_succ_eq_map, List.map_cons,
      List.map_map]
    refine congrArg₂ _ (by simp [ocrBlockOf]) ?_
    refine List.map_congr_left ?_
    intro j _
    simp [Function.comp]
    ring_nf

theorem ocrBlocks_ids (ds : List Detection) :
    (ocrBlocks ds).map Block.id =
      (List.range ds.length).map
        (fun j => 'o' :: 'c' :: 'r' :: natStr (j + 1)) := by
  rw [ocrBlocks, ocrBlocksFrom_ids ds 0]
  simp

theorem ocrBlocks_ids_nodup (ds : List Detection) :
    ((ocrBlocks ds).map Block.id).Nodup := by
  rw [ocrBlocks_ids]
  refine List.Nodup.map ?_ (List.nodup_range _)
  intro m n h
  simpa using ocrId_inj h

theorem easyAttempt_ok_shape {env : OcrEnv} {st st2 : Option (List Char)}
    {lang : List Char} {bs : List Block}
    (h : easyAttempt env st lang = (.ok bs, st2)) :
    bs = [] ∨ ∃ ds, bs = ocrBlocks ds := by
  unfold easyAttempt at h
  split at h
  · rcases he : env.easy (st.getD lang) with _ | ds <;>
      rw [he] at h <;> simp only [easyCase] at h
    · simp at h
    · simp only [Prod.mk.injEq, Except.ok.injEq] at h
      exact Or.inr ⟨ds, h.1.symm⟩
  · simp only [Prod.mk.injEq, Except.ok.injEq] at h
    exact Or.inl h.1.symm

theorem ocrAttempt_ok_shape {env : OcrEnv} {st st2 : Option (List Char)}
    {lang : List Char} {bs : List Block}
    (h : ocrAttempt env st lang = (.ok bs, st2)) :
    bs = [] ∨ ∃ ds, bs = ocrBlocks ds := by
  unfold ocrAttempt at h
  split at h
  · rcases hp : env.paddle with _ | ds <;>
      rw [hp] at h <;> simp only [paddleCase] at h
    · simp at h
    · split at h
      · exact easyAttempt_ok_shape h
      · simp only [Prod.mk.injEq, Except.ok.injEq] at h
        exact Or.inr ⟨ds, h.1.symm⟩
  · exact easyAttempt_ok_shape h

theorem ocrPageRun_shape (env : OcrEnv) (st : Option (List Char))
    (lang : List Char) :
    (ocrPageRun env st lang).1 = [] ∨
      ∃ ds, (ocrPageRun env st lang).1 = ocrBlocks ds := by
  unfold ocrPageRun
  rcases ha : ocrAttempt env st lang with ⟨r, st2⟩
  rcases r with _ | bs
  · simp [caught]
  · simp only [caught]
    exact ocrAttempt_ok_shape ha

theorem sortBlocks_ids_nodup {l : List Block}
    (h : (l.map Block.id).Nodup) :
    ((sortBlocks l).map Block.id).Nodup :=
  (((sortBlocks_perm l).map Block.id).nodup_iff).mpr h

/-- Ids on an emitted PDF page are pairwise distinct. -/
theorem processPdfPage_ids_nodup (enableOcr : Bool) (lang : List Char)
    (st : Option (List Char)) (n : ℕ) (pin : PdfPageInput) :
    (((processPdfPage enableOcr lang st n pin).1.blocks).map Block.id).Nodup := by
  unfold processPdfPage processPdfPageT
  split
  · simp only
    refine sortBlocks_ids_nodup ?_
    split
    · exact extractNative_ids_nodup pin.raw
    · rcases ocrPageRun_shape pin.ocr st lang with hsh | ⟨ds, hsh⟩
      · rw [hsh]; simp
      · rw [hsh]; exact ocrBlocks_ids_nodup ds
  · simp only
    exact sortBlocks_ids_nodup (extractNative_ids_nodup pin.raw)

/-- Ids on the emitted image page are pairwise distinct. -/
theorem processImage_ids_nodup {path : List Char} {docId : Option (List Char)}
    {lang : List Char} {img : ImageInput} {st : Option (List Char)}
    {d : DocumentRec}
    (h : (processImage path docId lang img st).1 = .ok d)
    {p : Page} (hp : p ∈ d.pages) :
    ((p.blocks).map Block.id).Nodup := by
  unfold processImage at h
  rcases hdims : img.dims with _ | wh <;>
    rw [hdims] at h <;> simp only [withDims] at h
  · cases h
  · rcases ha : ocrAttempt img.ocr st lang with ⟨r, st2⟩
    rcases r with _ | bs <;> rw [ha] at h <;> simp only [imageResult] at h
    · cases h
    · rcases Except.ok.injEq .. ▸ h with hd2
      cases hd2
      rcases List.mem_singleton.mp hp with rfl
      refine sortBlocks_ids_nodup ?_
      rcases ocrAttempt_ok_shape ha with rfl | ⟨ds, rfl⟩
      · simp
      · exact ocrBlocks_ids_nodup ds

/-! ## Lemmas about lang-independence of the OCR attempt -/

theorem ocrBlocksFrom_confidences (ds : List Detection) :
    ∀ i, (ocrBlocksFrom i ds).map Block.confidence =
      ds.map Detection.conf := by
  induction ds with
  | nil => intro i; rfl
  | cons d rest ih => intro i; simp [ocrBlocksFrom, ocrBlockOf, ih]

theorem ocrAttempt_paddle_hit {env : OcrEnv} {ds : List Detection}
    (hav : env.paddleAvailable = true) (hok : env.paddle = .ok ds)
    (hne : ds ≠ []) (st : Option (List Char)) (lang : List Char) :
    ocrAttempt env st lang = (.ok (ocrBlocks ds), st) := by
  unfold ocrAttempt
  rw [hav, hok]
  simp only [if_true, paddleCase]
  rw [if_neg (by simpa [List.isEmpty_iff] using hne)]

theorem easyAttempt_st_some_lang_irrel (env : OcrEnv) (l0 lang1 lang2 : List Char) :
    easyAttempt env (some l0) lang1 = easyAttempt env (some l0) lang2 := by
  simp [easyAttempt]

theorem ocrAttempt_st_some_lang_irrel (env : OcrEnv) (l0 lang1 lang2 : List Char) :
    ocrAttempt env (some l0) lang1 = ocrAttempt env (some l0) lang2 := by
  have he := easyAttempt_st_some_lang_irrel env l0 lang1 lang2
  unfold ocrAttempt
  split
  · rcases env.paddle with _ | ds <;> simp only [paddleCase]
    split
    · exact he
    · rfl
  · exact he

/-! ## Concrete fixtures used by counterexamples and witnesses -/

/-- An OCR environment with no engine installed. -/
def envNone : OcrEnv :=
  { paddleAvailable := false, paddle := .ok [], easyAvailable := false,
    easy := fun _ => .ok [] }

theorem envNone_no_det (d : Detection) : ¬ envDet envNone d := by
  rintro (⟨ds, hds, hmem⟩ | ⟨rl, ds, hds, hmem⟩) <;>
    · simp only [envNone] at hds
      cases hds
      simp at hmem

/-- PaddleOCR installed but raising on recognition. -/
def envRaise : OcrEnv :=
  { paddleAvailable := true, paddle := .raise, easyAvailable := false,
    easy := fun _ => .ok [] }

/-- A detection whose recognized text is a single space. -/
def spaceDetection : Detection :=
  { poly := { p0 := (0, 0), rest := [(5, 0), (5, 5), (0, 5)] },
    text := [' '], conf := mkRat 9 10 }

/-- PaddleOCR installed and returning one whitespace-only detection. -/
def envSpaceText : OcrEnv :=
  { paddleAvailable := true, paddle := .ok [spaceDetection],
    easyAvailable := false, easy := fun _ => .ok [] }

/-- A detection whose reported confidence exceeds 1. -/
def overConfDetection : Detection :=
  { poly := { p0 := (0, 0), rest := [(5, 0), (5, 5), (0, 5)] },
    text := ['x'], conf := mkRat 3 2 }

def envOverConf : OcrEnv :=
  { paddleAvailable := true, paddle := .ok [overConfDetection],
    easyAvailable := false, easy := fun _ => .ok [] }

def pathImg : List Char := "scan.png".data

def pathPdf : List Char := "docs/sample.pdf".data

def imgRaise : ImageInput := { dims := some (100, 100), ocr := envRaise }

def imgSpaceText : ImageInput := { dims := some (100, 100), ocr := envSpaceText }

def imgOverConf : ImageInput := { dims := some (100, 100), ocr := envOverConf }

def imgNone : ImageInput := { dims := none, ocr := envNone }

def docEmpty : DocumentRec :=
  { document_id := [], filename := [], num_pages := 0, pages := [] }

def helloFrag : RawFragment :=
  { x0 := 10, y0 := 10, x1 := 100, y1 := 30, text := "Hello World".data }

def pinHello : PdfPageInput :=
  { widthQ := 612, heightQ := 792, raw := [.frag helloFrag], ocr := envNone }

def pinNoText : PdfPageInput :=
  { widthQ := 612, heightQ := 792, raw := [], ocr := envNone }

/-- The block the native extractor emits for `helloFrag`. -/
def helloBlock : Block :=
  { id := ['b', '1'], role := roleText, bbox := ⟨10, 10, 100, 30⟩,
    text := "Hello World".data, confidence := 1 }

/-- Two blocks with identical bounding boxes, as in the stability example. -/
def exBlockA : Block :=
  { id := ['1'], role := roleText, bbox := ⟨0, 10, 5, 20⟩,
    text := ['a'], confidence := 1 }

def exBlockB : Block :=
  { id := ['2'], role := roleText, bbox := ⟨0, 10, 5, 20⟩,
    text := ['b'], confidence := 1 }

/-! ## Claims -/

/-- C1, counterexample: the code does not strip or drop OCR-engine text.
With PaddleOCR returning one detection whose text is a single space,
`process_image_to_layout_json` emits a block whose `text` is
whitespace-only, refuting the claim that no emitted block has empty or
whitespace-only text for OCR-derived blocks. -/
theorem C1_counterexample :
    ((processImage pathImg none enLang imgSpaceText none).1.toOption.map
      (fun d => d.pages.map (fun p => p.blocks.map (fun b => blank b.text)))) =
    some [[true]] := by decide

/-- C1, amended: every native-text block has non-blank text (fragments
whose cleanup leaves nothing are dropped), and every emitted block of
either entry point has non-blank text provided every detection text the
OCR engines report is itself non-blank; OCR text is carried verbatim. -/
theorem C1_text_nonblank (e : Bool) (lang : List Char)
    (st : Option (List Char)) (n : ℕ) (pin : PdfPageInput)
    (path : List Char) (docId : Option (List Char)) (img : ImageInput)
    (d : DocumentRec)
    (hp : ∀ dt, envDet pin.ocr dt → blank dt.text = false)
    (hi : ∀ dt, envDet img.ocr dt → blank dt.text = false) :
    (∀ (raw : List RawEntry) (b : Block), b ∈ extractNative raw →
      blank b.text = false) ∧
    (∀ b ∈ (processPdfPage e lang st n pin).1.blocks, blank b.text = false) ∧
    ((processImage path docId lang img st).1 = .ok d →
      ∀ p ∈ d.pages, ∀ b ∈ p.blocks, blank b.text = false) := by
  have hnat : ∀ (raw : List RawEntry) (b : Block), b ∈ extractNative raw →
      blank b.text = false := by
    intro raw b hb
    rcases mem_extractNative hb with ⟨j, f, -, hnb⟩
    exact nativeBlockOf_text_nonblank hnb
  refine ⟨hnat, ?_, ?_⟩
  · intro b hb
    rcases processPdfPage_blocks_mem hb with hb2 | ⟨j, dt, hdt, rfl⟩
    · exact hnat pin.raw b hb2
    · simpa [ocrBlockOf] using hp dt hdt
  · intro h p hpp b hb
    rcases processImage_blocks_mem h hpp hb with ⟨j, dt, hdt, rfl⟩
    simpa [ocrBlockOf] using hi dt hdt

theorem C1_witness : blank helloBlock.text = false :=
  (C1_text_nonblank true enLang none 0 pinHello pathImg none imgNone docEmpty
      (fun dt hdt => absurd hdt (envNone_no_det dt))
      (fun dt hdt => absurd hdt (envNone_no_det dt))).1
    [RawEntry.frag helloFrag] helloBlock (by decide)

/-- C2, counterexample: in `process_image_to_layout_json` the engine call
runs inside the function's own `try`, whose handler re-raises: a raising
engine aborts the whole call instead of being treated as zero
detections, refuting the claim for this entry point. -/
theorem C2_counterexample :
    (processImage pathImg none enLang imgRaise none).1 = .error () := by rfl

/-- C2, amended: in the PDF path `_ocr_page` catches engine exceptions and
backend absence, turning both into an empty block list, and every page of
the document is still produced; in `process_image_to_layout_json` backend
absence also degrades to an empty block list, but a raising engine
propagates and aborts the whole call. -/
theorem C2_degraded_ocr (env : OcrEnv) (st : Option (List Char))
    (lang pdfPath path : List Char) (docId : Option (List Char))
    (e : Bool) (inputs : List PdfPageInput) (img : ImageInput)
    (hpr : env.paddleAvailable = true) (hr : env.paddle = .raise)
    (hipr : img.ocr.paddleAvailable = true) (hir : img.ocr.paddle = .raise) :
    ocrPageRun env st lang = ([], st) ∧
    (∀ (env2 : OcrEnv) (st2 : Option (List Char)),
      env2.paddleAvailable = false → env2.easyAvailable = false →
        ocrPageRun env2 st2 lang = ([], st2)) ∧
    (∀ (env2 : OcrEnv) (st2 : Option (List Char)),
      env2.paddleAvailable = false → env2.easyAvailable = true →
        env2.easy (st2.getD lang) = .raise →
          (ocrPageRun env2 st2 lang).1 = []) ∧
    ((processPdf pdfPath docId e lang inputs st).1.num_pages = inputs.length ∧
      (processPdf pdfPath docId e lang inputs st).1.pages.length =
        inputs.length) ∧
    (processImage path docId lang img st).1 = .error () ∧
    (∀ (img2 : ImageInput) (wh : ℤ × ℤ),
      img2.ocr.paddleAvailable = false → img2.ocr.easyAvailable = false →
        img2.dims = some wh →
          (processImage path docId lang img2 st).1 =
            .ok { document_id := resolveDocId docId path
                  filename := basename path
                  num_pages := 1
                  pages := [{ page := 1, width := wh.1, height := wh.2,
                              blocks := [] }] }) := by
  refine ⟨?_, ?_, ?_, ?_, ?_, ?_⟩
  · simp [ocrPageRun, ocrAttempt, hpr, hr, paddleCase, caught]
  · intro env2 st2 h1 h2
    simp [ocrPageRun, ocrAttempt, easyAttempt, h1, h2, caught]
  · intro env2 st2 h1 h2 h3
    simp [ocrPageRun, ocrAttempt, easyAttempt, h1, h2, h3, easyCase, caught]
  · constructor <;> simp [processPdf, processPdfPages_length]
  · unfold processImage
    rcases img.dims with _ | wh <;>
      simp [withDims, ocrAttempt, hipr, hir, paddleCase, imageResult]
  · intro img2 wh h1 h2 hdims
    unfold processImage
    rw [hdims]
    simp [withDims, ocrAttempt, easyAttempt, h1, h2, imageResult, sortBlocks]

theorem C2_witness : ocrPageRun envRaise none enLang = ([], none) :=
  (C2_degraded_ocr envRaise none enLang pathPdf pathImg none true []
    imgRaise rfl rfl rfl rfl).1

/-- C3, counterexample: OCR confidences are passed through unclamped:
with PaddleOCR reporting a confidence of 3/2, the emitted block's
confidence exceeds 1, refuting the claimed bound `confidence ≤ 1.0`. -/
theorem C3_counterexample :
    ((processImage pathImg none enLang imgOverConf none).1.toOption.map
      (fun d => d.pages.map (fun p => p.blocks.map
        (fun b => decide (b.confidence ≤ 1))))) = some [[false]] := by decide

/-- C3, amended: native-text blocks always carry confidence exactly 1,
OCR blocks carry the engine's reported score verbatim, and all emitted
confidences lie in `[0, 1]` provided the engines' reported scores do. -/
theorem C3_confidence (e : Bool) (lang : List Char) (st : Option (List Char))
    (n : ℕ) (pin : PdfPageInput) (path : List Char)
    (docId : Option (List Char)) (img : ImageInput) (d : DocumentRec)
    (hp : ∀ dt, envDet pin.ocr dt → 0 ≤ dt.conf ∧ dt.conf ≤ 1)
    (hi : ∀ dt, envDet img.ocr dt → 0 ≤ dt.conf ∧ dt.conf ≤ 1) :
    (∀ (raw : List RawEntry) (b : Block), b ∈ extractNative raw →
      b.confidence = 1) ∧
    (∀ ds : List Detection,
      (ocrBlocks ds).map Block.confidence = ds.map Detection.conf) ∧
    (∀ b ∈ (processPdfPage e lang st n pin).1.blocks,
      0 ≤ b.confidence ∧ b.confidence ≤ 1) ∧
    ((processImage path docId lang img st).1 = .ok d →
      ∀ p ∈ d.pages, ∀ b ∈ p.blocks, 0 ≤ b.confidence ∧ b.confidence ≤ 1) := by
  have hnat : ∀ (raw : List RawEntry) (b : Block), b ∈ extractNative raw →
      b.confidence = 1 := by
    intro raw b hb
    rcases mem_extractNative hb with ⟨j, f, -, hnb⟩
    exact (nativeBlockOf_eq_some hnb).2.2.2.2.1
  refine ⟨hnat, fun ds => ocrBlocksFrom_confidences ds 0, ?_, ?_⟩
  · intro b hb
    rcases processPdfPage_blocks_mem hb with hb2 | ⟨j, dt, hdt, rfl⟩
    · rw [hnat pin.raw b hb2]
      norm_num
    · simpa [ocrBlockOf] using hp dt hdt
  · intro h p hpp b hb
    rcases processImage_blocks_mem h hpp hb with ⟨j, dt, hdt, rfl⟩
    simpa [ocrBlockOf] using hi dt hdt

theorem C3_witness : helloBlock.confidence = 1 :=
  (C3_confidence true enLang none 0 pinHello pathImg none imgNone docEmpty
      (fun dt hdt => absurd hdt (envNone_no_det dt))
      (fun dt hdt => absurd hdt (envNone_no_det dt))).1
    [RawEntry.frag helloFrag] helloBlock (by decide)

/-- C4: on a PDF page, the OCR engine adapter is invoked exactly when
OCR is enabled and the native extractor yielded zero blocks; a page with
non-empty native text is insensitive to the OCR environment entirely;
and with OCR disabled an empty native extraction yields zero blocks. -/
theorem C4_ocr_gate (e : Bool) (lang : List Char) (st : Option (List Char))
    (n : ℕ) (pin : PdfPageInput) :
    ((processPdfPageT e lang st n pin).2.2 = true ↔
      (e = true ∧ extractNative pin.raw = [])) ∧
    (extractNative pin.raw ≠ [] →
      ∀ env2 : OcrEnv, processPdfPage e lang st n { pin with ocr := env2 } =
        processPdfPage e lang st n pin) ∧
    (e = false → extractNative pin.raw = [] →
      (processPdfPage e lang st n pin).1.blocks = []) := by
  refine ⟨?_, ?_, ?_⟩
  · by_cases hc : (e && (extractNative pin.raw).isEmpty) = true
    · rw [processPdfPageT, if_pos hc]
      rcases Bool.and_eq_true .. |>.mp hc with ⟨he, hne⟩
      simpa [he] using List.isEmpty_iff.mp hne
    · rw [processPdfPageT, if_neg hc]
      simp only [Bool.and_eq_true, List.isEmpty_iff] at hc
      simpa using hc
  · intro hne env2
    have hc : ∀ env3 : OcrEnv,
        (e && (extractNative pin.raw).isEmpty) = false := by
      intro env3
      simp [List.isEmpty_iff, hne]
    unfold processPdfPage processPdfPageT
    rw [if_neg (by simp [hc envNone]), if_neg (by simp [hc envNone])]
  · intro he hraw
    unfold processPdfPage processPdfPageT
    rw [if_neg (by simp [he])]
    simp only [hraw]
    rfl

theorem C4_witness :
    (processPdfPage false enLang none 0 pinNoText).1.blocks = [] :=
  (C4_ocr_gate false enLang none 0 pinNoText).2.2 rfl (by decide)

/-- C5: the reading-order sort orders every page's blocks by ascending
`(bbox[1], bbox[0])`, is a permutation of its input, and is stable: the
subsequence of blocks having any fixed sort key is unchanged; in
particular two blocks with identical bboxes keep their input order. -/
theorem C5_reading_order_sort (l : List Block) :
    (sortBlocks l).Pairwise keyLe ∧
    List.Perm (sortBlocks l) l ∧
    (∀ k : ℤ × ℤ, (sortBlocks l).filter (fun b => sortKey b = k) =
      l.filter (fun b => sortKey b = k)) ∧
    sortBlocks [exBlockA, exBlockB] = [exBlockA, exBlockB] :=
  ⟨sortBlocks_pairwise l, sortBlocks_perm l,
    fun k => sortBlocks_filter_key k l, by decide⟩

/-- A 4-vertex polygon used to instantiate the bbox claim. -/
def squarePoly : Polygon := { p0 := (0, 0), rest := [(5, 0), (5, 5), (0, 5)] }

/-- C6: every emitted bounding box satisfies `x0 ≤ x1` and `y0 ≤ y1`:
for OCR blocks unconditionally (min/max over the polygon's vertices,
then truncation), and for native-text blocks whenever the text layer
reports its fragments as bounding boxes (`x0 ≤ x1`, `y0 ≤ y1`), since
truncation toward zero is monotone. -/
theorem C6_bbox_ordered (e : Bool) (lang : List Char) (st : Option (List Char))
    (n : ℕ) (pin : PdfPageInput) (path : List Char)
    (docId : Option (List Char)) (img : ImageInput) (d : DocumentRec)
    (hnat : ∀ f : RawFragment, RawEntry.frag f ∈ pin.raw →
      f.x0 ≤ f.x1 ∧ f.y0 ≤ f.y1) :
    (∀ p : Polygon, (polyBbox p).x0 ≤ (polyBbox p).x1 ∧
      (polyBbox p).y0 ≤ (polyBbox p).y1) ∧
    (∀ b ∈ (processPdfPage e lang st n pin).1.blocks,
      b.bbox.x0 ≤ b.bbox.x1 ∧ b.bbox.y0 ≤ b.bbox.y1) ∧
    ((processImage path docId lang img st).1 = .ok d →
      ∀ p ∈ d.pages, ∀ b ∈ p.blocks,
        b.bbox.x0 ≤ b.bbox.x1 ∧ b.bbox.y0 ≤ b.bbox.y1) := by
  refine ⟨polyBbox_ordered, ?_, ?_⟩
  · intro b hb
    rcases processPdfPage_blocks_mem hb with hb2 | ⟨j, dt, -, rfl⟩
    · rcases mem_extractNative hb2 with ⟨j, f, hf, hnb⟩
      rcases nativeBlockOf_eq_some hnb with ⟨-, -, hbb, -⟩
      rw [hbb]
      rcases hnat f hf with ⟨hx, hy⟩
      exact ⟨trunc_mono hx, trunc_mono hy⟩
    · exact polyBbox_ordered dt.poly
  · intro h p hpp b hb
    rcases processImage_blocks_mem h hpp hb with ⟨j, dt, -, rfl⟩
    exact polyBbox_ordered dt.poly

theorem C6_witness :
    (polyBbox squarePoly).x0 ≤ (polyBbox squarePoly).x1 ∧
    (polyBbox squarePoly).y0 ≤ (polyBbox squarePoly).y1 :=
  (C6_bbox_ordered true enLang none 0 pinHello pathImg none imgNone docEmpty
    (by
      intro f hf
      have h2 : RawEntry.frag f = RawEntry.frag helloFrag :=
        List.mem_singleton.mp hf
      injection h2 with h3
      subst h3
      exact ⟨by decide, by decide⟩)).1 squarePoly

/-- C7: the native extractor's cleanup of a raw fragment: `cleanLines`
is exactly split-into-lines, strip each, drop empties; a fragment is
dropped precisely when nothing survives; and an emitted block carries
the `'\n'`-join of the surviving lines (splitting it back recovers
them), confidence 1, and the truncated text-layer coordinates. -/
theorem C7_fragment_cleanup (i : ℕ) (f : RawFragment) :
    (nativeBlockOf i f = none ↔ cleanLines f.text = []) ∧
    (cleanLines f.text =
      ((splitlines f.text).map strip).filter (fun l => !l.isEmpty)) ∧
    (∀ b : Block, nativeBlockOf i f = some b →
      b.text = joinNL (cleanLines f.text) ∧
      b.confidence = 1 ∧
      b.bbox = ⟨trunc f.x0, trunc f.y0, trunc f.x1, trunc f.y1⟩ ∧
      splitlines b.text = cleanLines f.text ∧
      blank b.text = false) := by
  refine ⟨nativeBlockOf_eq_none_iff, rfl, ?_⟩
  intro b hb
  rcases nativeBlockOf_eq_some hb with ⟨-, -, hbb, htext, hconf, hne⟩
  refine ⟨htext, hconf, hbb, ?_, ?_⟩
  · rw [htext, splitlines_joinNL_cleanLines]
  · rw [htext]
    exact blank_joinNL_cleanLines hne

theorem C7_witness :
    cleanLines helloFrag.text ≠ [] ∧
    (nativeBlockOf 0 helloFrag = none ↔ cleanLines helloFrag.text = []) :=
  ⟨by decide, (C7_fragment_cleanup 0 helloFrag).1⟩

/-- C8: block ids: native ids are `b<n>` with `n` the 1-based raw
enumeration index, strictly increasing along the extraction order; OCR
ids are exactly `ocr1, ocr2, …` consecutively in engine order; and ids
are pairwise distinct within every emitted page of both entry points. -/
theorem C8_block_ids (raw : List RawEntry) (ds : List Detection)
    (e : Bool) (lang : List Char) (st : Option (List Char)) (n : ℕ)
    (pin : PdfPageInput) (path : List Char) (docId : Option (List Char))
    (img : ImageInput) (d : DocumentRec) :
    ((extractNative raw).map Block.id).Nodup ∧
    (∃ ns : List ℕ, ns.Pairwise (· < ·) ∧
      (extractNative raw).map Block.id =
        ns.map (fun k => 'b' :: natStr (k + 1))) ∧
    ((ocrBlocks ds).map Block.id =
      (List.range ds.length).map
        (fun j => 'o' :: 'c' :: 'r' :: natStr (j + 1))) ∧
    ((ocrBlocks ds).map Block.id).Nodup ∧
    (((processPdfPage e lang st n pin).1.blocks).map Block.id).Nodup ∧
    ((processImage path docId lang img st).1 = .ok d →
      ∀ p ∈ d.pages, ((p.blocks).map Block.id).Nodup) :=
  ⟨extractNative_ids_nodup raw, extractNative_ids raw, ocrBlocks_ids ds,
    ocrBlocks_ids_nodup ds, processPdfPage_ids_nodup e lang st n pin,
    fun h p hp => processImage_ids_nodup h hp⟩

theorem C8_witness :
    (ocrBlocks [spaceDetection]).map Block.id =
      (List.range 1).map (fun j => 'o' :: 'c' :: 'r' :: natStr (j + 1)) :=
  (C8_block_ids [] [spaceDetection] true enLang none 0 pinHello pathImg
    none imgNone docEmpty).2.2.1

/-- C9: `ocr_lang` never reaches PaddleOCR: `_get_paddle_ocr` always
constructs with language `'en'`; whenever PaddleOCR is available and
returns at least one detection, both entry points' outputs are
independent of `ocr_lang`; and once the EasyOCR singleton exists (state
`some l0`), `ocr_lang` has no effect at all. -/
theorem C9_paddle_lang_noninterference
    (env env2 : OcrEnv) (ds ds2 : List Detection)
    (st : Option (List Char)) (lang1 lang2 path l0 : List Char)
    (docId : Option (List Char)) (img img2 : ImageInput)
    (hav : env.paddleAvailable = true) (hok : env.paddle = .ok ds)
    (hne : ds ≠ [])
    (hia : img.ocr.paddleAvailable = true) (hio : img.ocr.paddle = .ok ds2)
    (hin : ds2 ≠ []) :
    (∀ (av : Bool) (c : PaddleCfg), getPaddleOcr av = some c →
      c.lang = enLang) ∧
    ocrPageRun env st lang1 = ocrPageRun env st lang2 ∧
    processImage path docId lang1 img st =
      processImage path docId lang2 img st ∧
    ocrPageRun env2 (some l0) lang1 = ocrPageRun env2 (some l0) lang2 ∧
    processImage path docId lang1 img2 (some l0) =
      processImage path docId lang2 img2 (some l0) := by
  refine ⟨?_, ?_, ?_, ?_, ?_⟩
  · intro av c h
    unfold getPaddleOcr at h
    split at h
    · injection h with h2
      rw [← h2]
    · cases h
  · unfold ocrPageRun
    rw [ocrAttempt_paddle_hit hav hok hne st lang1,
      ocrAttempt_paddle_hit hav hok hne st lang2]
  · unfold processImage
    rcases hd : img.dims with _ | wh <;> simp only [withDims]
    rw [ocrAttempt_paddle_hit hia hio hin st lang1,
      ocrAttempt_paddle_hit hia hio hin st lang2]
  · unfold ocrPageRun
    rw [ocrAttempt_st_some_lang_irrel env2 l0 lang1 lang2]
  · unfold processImage
    rcases hd : img2.dims with _ | wh <;> simp only [withDims]
    rw [ocrAttempt_st_some_lang_irrel img2.ocr l0 lang1 lang2]

theorem C9_witness :
    ocrPageRun envSpaceText none ['f', 'r'] =
      ocrPageRun envSpaceText none enLang :=
  (C9_paddle_lang_noninterference envSpaceText envNone [spaceDetection]
    [spaceDetection] none ['f', 'r'] enLang pathImg enLang none
    imgSpaceText imgNone rfl rfl (by simp) rfl rfl (by simp)).2.1

/-- C10: a caller-supplied empty-string `document_id` is falsy for
Python `or`, so both entry points fall back to the source filename stem,
exactly as for an omitted (`None`) argument. -/
theorem C10_empty_document_id (path pdfPath lang : List Char) (e : Bool)
    (inputs : List PdfPageInput) (st : Option (List Char))
    (img : ImageInput) (d : DocumentRec) :
    resolveDocId (some []) path = stem path ∧
    resolveDocId none path = stem path ∧
    (processPdf pdfPath (some []) e lang inputs st).1.document_id =
      stem pdfPath ∧
    ((processImage path (some []) lang img st).1 = .ok d →
      d.document_id = stem path) := by
  refine ⟨rfl, rfl, rfl, ?_⟩
  intro h
  unfold processImage at h
  rcases hd : img.dims with _ | wh <;>
    rw [hd] at h <;> simp only [withDims] at h
  · cases h
  · rcases ha : ocrAttempt img.ocr st lang with ⟨r, st2⟩
    rcases r with _ | bs <;> rw [ha] at h <;> simp only [imageResult] at h
    · cases h
    · rcases Except.ok.injEq .. ▸ h with hd2
      cases hd2
      rfl

theorem C10_witness :
    (processPdf pathPdf (some []) true enLang [] none).1.document_id =
      stem pathPdf :=
  (C10_empty_document_id pathPdf pathPdf enLang true [] none imgNone
    docEmpty).2.2.1

end DocProc
